import Mathlib

/-!
A verification development for `htmlify.py` of git-notifier: the changeset
formatter that turns a plaintext commit message / diff into an HTML document.

The Python source is embedded shallowly over `List Char`:
* `separatorL`, `emailsepL` mirror the module constants `_separator` and
  `_emailsep`;
* `cgiEscape` mirrors Python 2 `cgi.escape` (sequentially replacing
  `&` by `&amp;`, then `<` by `&lt;`, then `>` by `&gt;`; since the later
  replacements never hit characters produced by the earlier ones, this equals
  the character-wise expansion used here);
* `subNbsp` mirrors the regex pass `_pattern = re.compile('(  +)')` together
  with the reversed-`finditer` replacement loop: every maximal run of two or
  more spaces is replaced by one `&nbsp;` entity per original space (replacing
  the disjoint, left-to-right maximal matches back to front is the same as
  rewriting them all in one left-to-right scan);
* `splitlines` mirrors Python 2 `str.splitlines` (line boundaries are
  `\n`, `\r` and the pair `\r\n`; no trailing phantom empty line);
* `pySplit` mirrors Python `str.split(sep)` for a non-empty separator:
  split at each leftmost non-overlapping occurrence, keeping empty pieces;
* `mangle_line`, `convert_block`, `breakemail`, `breakbody`, `htmlify`
  mirror the functions of the same names (sans leading underscore).

Recursions that consume more than one element per step (`subNbspGo`,
`splitGo`) take a fuel argument set to the list length, which keeps them
structurally recursive and kernel-computable; fuel-irrelevance lemmas below
show the fuel never runs out.
-/

/-- `_separator = '>' + ('-'*63) + '\n'`: separates commit message, diff, tags. -/
def separatorL : List Char := '>' :: (List.replicate 63 '-' ++ ['\n'])

/-- `_emailsep = '>' + ('*'*63)`: separates multiple emails in a changeset. -/
def emailsepL : List Char := '>' :: List.replicate 63 '*'

/-- The non-breaking-space entity `&nbsp;` inserted for each space of a run. -/
def nbspL : List Char := ['&', 'n', 'b', 's', 'p', ';']

/-- Image of one character under `cgi.escape` (quote=False): `&`, `<`, `>`
become the entities `&amp;`, `&lt;`, `&gt;`, everything else is kept. -/
def escapeChar (c : Char) : List Char :=
  if c = '&' then ['&', 'a', 'm', 'p', ';']
  else if c = '<' then ['&', 'l', 't', ';']
  else if c = '>' then ['&', 'g', 't', ';']
  else [c]

/-- `cgi.escape(line)` as the character-wise expansion by `escapeChar`. -/
def cgiEscape (l : List Char) : List Char := l.flatMap escapeChar

/-- The predicate matched by the regex character class: a space. -/
def isSp (c : Char) : Bool := c = ' '

/-- One left-to-right scan replacing each maximal run of `n ≥ 2` spaces with
`n` copies of `&nbsp;` (the effect of the `finditer` loop over `'(  +)'`).
The fuel argument is only there for structural recursion. -/
def subNbspGo : Nat → List Char → List Char
  | _, [] => []
  | 0, l => l
  | fuel+1, c :: cs =>
    if c = ' ' ∧ cs.head? = some ' ' then
      (List.replicate (1 + (cs.takeWhile isSp).length) nbspL).flatten
        ++ subNbspGo fuel (cs.dropWhile isSp)
    else
      c :: subNbspGo fuel cs

/-- The whitespace-run substitution pass of `_mangle_line`. -/
def subNbsp (l : List Char) : List Char := subNbspGo l.length l

/-- The fully mangled line content before any color wrapping:
`cgi.escape` followed by the space-run substitution. -/
def mangleContent (line : List Char) : List Char := subNbsp (cgiEscape line)

/-- The opening tag `'<tt style="color:#800">'` used for removed lines. -/
def ttRedOpen : List Char := "<tt style=\"color:#800\">".toList

/-- The opening tag `'<tt style="color:#080">'` used for added lines. -/
def ttGreenOpen : List Char := "<tt style=\"color:#080\">".toList

/-- The closing tag `'</tt>'` of the color wrappers. -/
def ttCloseTag : List Char := "</tt>".toList

/-- `_mangle_line`: escape, substitute space runs, then wrap lines whose
(processed) content starts with `-` or `+` in a colored `tt` element. -/
def mangle_line (line : List Char) : List Char :=
  let content := mangleContent line
  if content.head? = some '-' then ttRedOpen ++ content ++ ttCloseTag
  else if content.head? = some '+' then ttGreenOpen ++ content ++ ttCloseTag
  else content

/-- Accumulator worker for `splitlines`. -/
def splitlinesGo : List Char → List Char → List (List Char)
  | [], acc => if acc.isEmpty then [] else [acc.reverse]
  | '\r' :: '\n' :: rest, acc => acc.reverse :: splitlinesGo rest []
  | '\r' :: rest, acc => acc.reverse :: splitlinesGo rest []
  | '\n' :: rest, acc => acc.reverse :: splitlinesGo rest []
  | c :: rest, acc => splitlinesGo rest (c :: acc)

/-- Python 2 `str.splitlines()`. -/
def splitlines (l : List Char) : List (List Char) := splitlinesGo l []

/-- Fuel-indexed worker for `pySplit`; the fuel is only for structural
recursion and is set to the list length, which the scan never exhausts. -/
def splitGo (sep : List Char) : Nat → List Char → List Char → List (List Char)
  | _, [], acc => [acc.reverse]
  | 0, l, acc => [acc.reverse ++ l]
  | fuel+1, c :: cs, acc =>
    if sep ≠ [] ∧ sep.isPrefixOf (c :: cs) then
      acc.reverse :: splitGo sep fuel ((c :: cs).drop sep.length) []
    else
      splitGo sep fuel cs (c :: acc)

/-- Python `text.split(sep)` for a non-empty `sep`: split at every leftmost
non-overlapping occurrence, keeping empty pieces. -/
def pySplit (sep l : List Char) : List (List Char) := splitGo sep l.length l []

/-- The plain `'<hr>'` marker placed between blocks by `_breakemail`. -/
def hrL : List Char := "<hr>".toList

/-- The `'<br>'` separator joining all rendered lines. -/
def brL : List Char := "<br>".toList

/-- `_convert_block`: split a block into lines and mangle each line. -/
def convert_block (text : List Char) : List (List Char) :=
  (splitlines text).map mangle_line

/-- The accumulation loop of `_breakemail`: the lines of the first block,
then, for every further block, a `'<hr>'` entry followed by its lines. -/
def blocksToLines : List (List Char) → List (List Char)
  | [] => []
  | b :: bs => convert_block b ++ bs.flatMap (fun blk => hrL :: convert_block blk)

/-- `_breakemail`: split on `_separator`, put `'<hr>'` before every block but
the first, and join all list entries with `'<br>'`. -/
def breakemail (text : List Char) : List Char :=
  List.intercalate brL (blocksToLines (pySplit separatorL text))

/-- The styled horizontal rule `_breakbody` puts between emails. -/
def emailHrL : List Char :=
  ("<hr style=\x27" ++
   "height: 3px; background-color: #eee; border: solid 1px; color: #ccc;\x27" ++
   "></hr>").toList

/-- `_breakbody`: split on `_emailsep` and join the per-email renderings with
the styled horizontal rule. -/
def breakbody (text : List Char) : List Char :=
  List.intercalate emailHrL ((pySplit emailsepL text).map breakemail)

/-- The fixed document head `'<html><body><tt>'`. -/
def docHead : List Char := "<html><body><tt>".toList

/-- The fixed document tail `'</tt></body></html>'`. -/
def docTail : List Char := "</tt></body></html>".toList

/-- `htmlify`: wrap the processed body in the fixed document skeleton. -/
def htmlify (text : List Char) : List Char := docHead ++ breakbody text ++ docTail

/-- `occursIn sep l` decides whether `sep` occurs as a contiguous substring
of `l` (some suffix of `l` starts with `sep`). -/
def occursIn (sep l : List Char) : Bool := l.tails.any (fun s => sep.isPrefixOf s)

/-- C3: for every input `t`, `htmlify t` is exactly the fixed head
`<html><body><tt>`, then the processed body, then the fixed tail
`</tt></body></html>`; in particular the head is a prefix and the tail a
suffix of the output, with nothing inserted around them. -/
theorem htmlify_wrapper_exact : ∀ t : List Char,
    htmlify t = docHead ++ breakbody t ++ docTail ∧
    docHead <+: htmlify t ∧ docTail <:+ htmlify t := by
  intro t
  refine ⟨rfl, ⟨breakbody t ++ docTail, by simp [htmlify]⟩,
    ⟨docHead ++ breakbody t, by simp [htmlify]⟩⟩

/-- C6: `htmlify` is total: every input list of characters is mapped to an
output list of characters (the embedding is a plain function, with no
error/`Option`/`Except` branch anywhere in the pipeline). -/
theorem htmlify_total : ∀ t : List Char, ∃ out : List Char, htmlify t = out :=
  fun t => ⟨htmlify t, rfl⟩

/-- C7: the empty input yields exactly the empty document
`<html><body><tt></tt></body></html>`. -/
theorem htmlify_empty :
    htmlify [] = "<html><body><tt></tt></body></html>".toList := by decide

/-- C8: `htmlify` is not idempotent: rendering the rendering of `""` differs
from the rendering of `""` (the wrapper tags get re-escaped). -/
theorem htmlify_not_idempotent :
    ∃ t : List Char, htmlify (htmlify t) ≠ htmlify t :=
  ⟨[], by decide⟩

/-- C9: `htmlify` is deterministic: equal inputs give equal outputs (and the
embedding is a pure function, so a call touches no outside state). -/
theorem htmlify_deterministic :
    ∀ t₁ t₂ : List Char, t₁ = t₂ → htmlify t₁ = htmlify t₂ :=
  fun _ _ h => congrArg htmlify h

/-- Witness for C9 at the concrete input `"a"`. -/
theorem htmlify_deterministic_witness : htmlify ['a'] = htmlify ['a'] :=
  htmlify_deterministic ['a'] ['a'] rfl

/-! ### Fuel irrelevance and unfolding for the space-run substitution -/

theorem subNbspGo_eq_subNbsp (f : Nat) :
    ∀ l : List Char, l.length ≤ f → subNbspGo f l = subNbsp l := by
  induction f using Nat.strong_induction_on with
  | _ f ih =>
    intro l hl
    cases l with
    | nil => cases f <;> rfl
    | cons c cs =>
      cases f with
      | zero => simp at hl
      | succ f' =>
        rw [subNbsp]
        simp only [List.length_cons] at hl ⊢
        simp only [subNbspGo]
        by_cases h : c = ' ' ∧ cs.head? = some ' '
        · rw [if_pos h, if_pos h]
          have hd : (cs.dropWhile isSp).length ≤ cs.length :=
            (List.dropWhile_suffix isSp).length_le
          have h1 : subNbspGo f' (cs.dropWhile isSp)
              = subNbspGo (cs.dropWhile isSp).length (cs.dropWhile isSp) := by
            rw [ih f' (Nat.lt_succ_self f') _ (le_trans hd (by omega))]; rfl
          have h2 : subNbspGo cs.length (cs.dropWhile isSp)
              = subNbspGo (cs.dropWhile isSp).length (cs.dropWhile isSp) := by
            rw [ih cs.length (by omega) _ hd]; rfl
          rw [h1, h2]
        · rw [if_neg h, if_neg h]
          have h1 : subNbspGo f' cs = subNbspGo cs.length cs := by
            rw [ih f' (Nat.lt_succ_self f') cs (by omega)]; rfl
          have h2 : subNbspGo cs.length cs = subNbspGo cs.length cs := rfl
          rw [h1]

theorem subNbsp_nil : subNbsp [] = [] := rfl

theorem subNbsp_cons_of_ne (c : Char) (cs : List Char)
    (h : ¬(c = ' ' ∧ cs.head? = some ' ')) : subNbsp (c :: cs) = c :: subNbsp cs := by
  rw [subNbsp]
  simp only [List.length_cons]
  simp only [subNbspGo]
  rw [if_neg h, subNbspGo_eq_subNbsp cs.length cs (le_refl _)]

theorem subNbsp_cons_nonspace {c : Char} (cs : List Char) (hc : c ≠ ' ') :
    subNbsp (c :: cs) = c :: subNbsp cs :=
  subNbsp_cons_of_ne c cs (fun hh => hc hh.1)

theorem subNbsp_cons_single (cs : List Char) (h : cs.head? ≠ some ' ') :
    subNbsp (' ' :: cs) = ' ' :: subNbsp cs :=
  subNbsp_cons_of_ne ' ' cs (fun hh => h hh.2)

theorem subNbsp_cons_run (cs : List Char) (h : cs.head? = some ' ') :
    subNbsp (' ' :: cs) =
      (List.replicate (1 + (cs.takeWhile isSp).length) nbspL).flatten
        ++ subNbsp (cs.dropWhile isSp) := by
  rw [subNbsp]
  simp only [List.length_cons]
  simp only [subNbspGo]
  rw [if_pos (And.intro trivial h),
    subNbspGo_eq_subNbsp cs.length _ (List.dropWhile_suffix isSp).length_le]

/-! ### The substitution respects maximal-run boundaries -/

theorem all_isSp_false_of_getLast (a : List Char) (ha : a ≠ [])
    (h : a.getLast? ≠ some ' ') : a.all isSp = false := by
  cases hA : a.all isSp with
  | false => rfl
  | true =>
    have hsp : isSp (a.getLast ha) = true :=
      List.all_eq_true.mp hA _ (List.getLast_mem ha)
    have hsp' : a.getLast ha = ' ' := by simpa [isSp] using hsp
    exact absurd (by rw [List.getLast?_eq_getLast a ha, hsp']) h

theorem takeWhile_append_left (l r : List Char) (h : l.all isSp = false) :
    (l ++ r).takeWhile isSp = l.takeWhile isSp := by
  rw [List.takeWhile_append]
  rw [if_neg]
  intro hlen
  have heq : l.takeWhile isSp = l :=
    (List.takeWhile_prefix isSp).eq_of_length hlen
  have hall : l.all isSp = true :=
    List.all_eq_true.mpr (fun x hx => List.mem_takeWhile_imp (by rw [heq]; exact hx))
  simp [hall] at h

theorem dropWhile_append_left (l r : List Char) (h : l.all isSp = false) :
    (l ++ r).dropWhile isSp = l.dropWhile isSp ++ r := by
  rw [List.dropWhile_append]
  rw [if_neg]
  intro hemp
  have hall : l.all isSp = true :=
    List.all_eq_true.mpr (List.dropWhile_eq_nil_iff.mp (List.isEmpty_iff.mp hemp))
  simp [hall] at h

theorem dropWhile_getLast (l : List Char) (h : l.all isSp = false) :
    (l.dropWhile isSp).getLast? = l.getLast? := by
  have hne : l.dropWhile isSp ≠ [] := by
    intro hnil
    have hall : l.all isSp = true :=
      List.all_eq_true.mpr (List.dropWhile_eq_nil_iff.mp hnil)
    simp [hall] at h
  obtain ⟨t, ht⟩ := List.dropWhile_suffix (l := l) isSp
  conv_rhs => rw [← ht]
  rw [List.getLast?_append]
  cases hq : (l.dropWhile isSp).getLast? with
  | none => exact absurd (List.getLast?_eq_none_iff.mp hq) hne
  | some x => rfl

theorem subNbsp_append_aux :
    ∀ n : Nat, ∀ a b : List Char, a.length ≤ n → a.getLast? ≠ some ' ' →
      subNbsp (a ++ b) = subNbsp a ++ subNbsp b := by
  intro n
  induction n with
  | zero =>
    intro a b ha _
    have h0 : a = [] := List.eq_nil_of_length_eq_zero (Nat.le_zero.mp ha)
    subst h0
    simp [subNbsp_nil]
  | succ n ih =>
    intro a b ha hlast
    cases a with
    | nil => simp [subNbsp_nil]
    | cons c a' =>
      have hlast' : a'.getLast? ≠ some ' ' := by
        cases a' with
        | nil => simp
        | cons d a'' => rw [List.getLast?_cons_cons] at hlast; exact hlast
      have hlen' : a'.length ≤ n := by
        simp only [List.length_cons] at ha; omega
      by_cases hc : c = ' '
      · subst hc
        have ha' : a' ≠ [] := by
          intro h0; subst h0; simp at hlast
        have hnall : a'.all isSp = false := all_isSp_false_of_getLast a' ha' hlast'
        rw [List.cons_append]
        cases hh : a'.head? with
        | none => exact absurd (List.head?_eq_none_iff.mp hh) ha'
        | some d =>
          by_cases hd : d = ' '
          · subst hd
            have hhead : (a' ++ b).head? = some ' ' := by
              cases a' with
              | nil => exact absurd rfl ha'
              | cons e a'' =>
                have he : e = ' ' := by simpa using hh
                simp [he]
            rw [subNbsp_cons_run _ hhead, subNbsp_cons_run _ hh]
            rw [takeWhile_append_left a' b hnall, dropWhile_append_left a' b hnall]
            have hdlast : (a'.dropWhile isSp).getLast? ≠ some ' ' := by
              rw [dropWhile_getLast a' hnall]; exact hlast'
            rw [ih (a'.dropWhile isSp) b
                (le_trans (List.dropWhile_suffix isSp).length_le hlen') hdlast]
            rw [List.append_assoc]
          · have hh' : a'.head? ≠ some ' ' := by
              rw [hh]; simpa using hd
            have hhead : (a' ++ b).head? ≠ some ' ' := by
              cases a' with
              | nil => exact absurd rfl ha'
              | cons e a'' =>
                have he : e = d := by simpa using hh
                subst he
                simpa using hd
            rw [subNbsp_cons_single _ hhead, subNbsp_cons_single _ hh',
              ih a' b hlen' hlast', List.cons_append]
      · rw [List.cons_append, subNbsp_cons_nonspace _ hc, subNbsp_cons_nonspace _ hc,
          ih a' b hlen' hlast', List.cons_append]

theorem subNbsp_append (a b : List Char) (h : a.getLast? ≠ some ' ') :
    subNbsp (a ++ b) = subNbsp a ++ subNbsp b :=
  subNbsp_append_aux a.length a b (le_refl _) h

theorem subNbsp_replicate (n : Nat) (hn : 2 ≤ n) (b : List Char)
    (hb : b.head? ≠ some ' ') :
    subNbsp (List.replicate n ' ' ++ b) = (List.replicate n nbspL).flatten ++ subNbsp b := by
  obtain ⟨m, rfl⟩ : ∃ m, n = m + 2 := ⟨n - 2, by omega⟩
  have htwb : b.takeWhile isSp = [] := by
    cases b with
    | nil => rfl
    | cons x xs =>
      have hx : x ≠ ' ' := by simpa using hb
      rw [List.takeWhile_cons, if_neg (by simpa [isSp] using hx)]
  have hdwb : b.dropWhile isSp = b := by
    cases b with
    | nil => rfl
    | cons x xs =>
      have hx : x ≠ ' ' := by simpa using hb
      rw [List.dropWhile_cons, if_neg (by simpa [isSp] using hx)]
  rw [List.replicate_succ, List.cons_append]
  have hhead : (List.replicate (m+1) ' ' ++ b).head? = some ' ' := by
    rw [List.replicate_succ, List.cons_append]; rfl
  rw [subNbsp_cons_run _ hhead]
  have hcond : ((List.replicate (m+1) ' ').takeWhile isSp).length
      = (List.replicate (m+1) ' ').length := by
    rw [List.takeWhile_replicate, if_pos (by simp [isSp])]
  have htw : (List.replicate (m+1) ' ' ++ b).takeWhile isSp
      = List.replicate (m+1) ' ' := by
    rw [List.takeWhile_append, if_pos hcond, htwb, List.append_nil]
  have hcond2 : ((List.replicate (m+1) ' ').dropWhile isSp).isEmpty = true := by
    rw [List.dropWhile_replicate, if_pos (by simp [isSp])]; rfl
  have hdw : (List.replicate (m+1) ' ' ++ b).dropWhile isSp = b := by
    rw [List.dropWhile_append, if_pos hcond2, hdwb]
  rw [htw, hdw, List.length_replicate]
  have harith : 1 + (m + 1) = m + 2 := by omega
  rw [harith]

/-! ### Properties of the escaping pass -/

theorem escapeChar_space : escapeChar ' ' = [' '] := by decide

theorem escapeChar_ne_nil (c : Char) : escapeChar c ≠ [] := by
  unfold escapeChar
  split_ifs <;> simp

theorem cgiEscape_nil : cgiEscape [] = [] := rfl

theorem cgiEscape_cons (c : Char) (l : List Char) :
    cgiEscape (c :: l) = escapeChar c ++ cgiEscape l := rfl

theorem cgiEscape_append (a b : List Char) :
    cgiEscape (a ++ b) = cgiEscape a ++ cgiEscape b :=
  List.flatMap_append a b escapeChar

theorem cgiEscape_replicate_space (n : Nat) :
    cgiEscape (List.replicate n ' ') = List.replicate n ' ' := by
  induction n with
  | zero => rfl
  | succ m ih =>
    rw [List.replicate_succ, cgiEscape_cons, escapeChar_space, ih, List.singleton_append]

theorem escapeChar_getLast_ne_space (c : Char) (hc : c ≠ ' ') :
    (escapeChar c).getLast? ≠ some ' ' := by
  unfold escapeChar
  split_ifs <;> simp [hc]

theorem cgiEscape_getLast (a : List Char) (h : a.getLast? ≠ some ' ') :
    (cgiEscape a).getLast? ≠ some ' ' := by
  induction a using List.reverseRecOn with
  | nil => simp [cgiEscape_nil]
  | append_singleton l c _ =>
    have hc : c ≠ ' ' := by
      rw [List.getLast?_concat] at h; simpa using h
    rw [cgiEscape_append, List.getLast?_append]
    have h1 : cgiEscape [c] = escapeChar c ++ [] := rfl
    rw [h1, List.append_nil]
    cases hq : (escapeChar c).getLast? with
    | none => exact absurd (List.getLast?_eq_none_iff.mp hq) (escapeChar_ne_nil c)
    | some x =>
      have := escapeChar_getLast_ne_space c hc
      rw [hq] at this
      simpa using this

theorem escapeChar_head_ne_space (c : Char) (hc : c ≠ ' ') :
    (escapeChar c).head? ≠ some ' ' := by
  unfold escapeChar
  split_ifs <;> simp [hc]

theorem cgiEscape_head (a : List Char) (h : a.head? ≠ some ' ') :
    (cgiEscape a).head? ≠ some ' ' := by
  cases a with
  | nil => simp [cgiEscape_nil]
  | cons c l =>
    have hc : c ≠ ' ' := by simpa using h
    rw [cgiEscape_cons, List.head?_append]
    cases hq : (escapeChar c).head? with
    | none => exact absurd (List.head?_eq_none_iff.mp hq) (escapeChar_ne_nil c)
    | some x =>
      have := escapeChar_head_ne_space c hc
      rw [hq] at this
      simpa using this

/-- C4: in the per-line content transformation, a maximal run of exactly
`n ≥ 2` spaces (the neighbouring characters are non-spaces) is rendered as
`n` consecutive copies of `&nbsp;` in the same position, while a single
isolated space stays a literal space. -/
theorem mangle_space_runs (a b : List Char)
    (ha : a.getLast? ≠ some ' ') (hb : b.head? ≠ some ' ') :
    (∀ n : Nat, 2 ≤ n →
      mangleContent (a ++ List.replicate n ' ' ++ b)
        = mangleContent a ++ (List.replicate n nbspL).flatten ++ mangleContent b) ∧
    mangleContent (a ++ ' ' :: b) = mangleContent a ++ ' ' :: mangleContent b := by
  have hA := cgiEscape_getLast a ha
  have hB := cgiEscape_head b hb
  constructor
  · intro n hn
    rw [mangleContent, List.append_assoc, cgiEscape_append, cgiEscape_append,
      cgiEscape_replicate_space, subNbsp_append _ _ hA, subNbsp_replicate n hn _ hB,
      mangleContent, mangleContent, List.append_assoc]
  · rw [mangleContent, cgiEscape_append, cgiEscape_cons, escapeChar_space,
      List.singleton_append, subNbsp_append _ _ hA, subNbsp_cons_single _ hB]
    rfl

/-- Witness for C4 at `a = "a"`, `b = "b"`, run length `2`, and a single space. -/
theorem mangle_space_runs_witness :
    mangleContent (['a'] ++ List.replicate 2 ' ' ++ ['b'])
      = mangleContent ['a'] ++ (List.replicate 2 nbspL).flatten ++ mangleContent ['b'] ∧
    mangleContent (['a'] ++ ' ' :: ['b'])
      = mangleContent ['a'] ++ ' ' :: mangleContent ['b'] :=
  ⟨(mangle_space_runs ['a'] ['b'] (by decide) (by decide)).1 2 (by decide),
   (mangle_space_runs ['a'] ['b'] (by decide) (by decide)).2⟩

/-! ### The escaping pass never leaves a literal angle bracket -/

theorem not_mem_subNbspGo (c : Char) (hn : c ∉ nbspL) :
    ∀ (f : Nat) (l : List Char), c ∉ l → c ∉ subNbspGo f l := by
  intro f
  induction f with
  | zero =>
    intro l hl
    cases l with
    | nil => simp [subNbspGo]
    | cons d cs => exact hl
  | succ f ih =>
    intro l hl
    cases l with
    | nil => simp [subNbspGo]
    | cons d cs =>
      simp only [subNbspGo]
      split
      · intro hmem
        rcases List.mem_append.mp hmem with h1 | h2
        · rcases List.mem_flatten.mp h1 with ⟨l', hl', hcl'⟩
          rw [(List.mem_replicate.mp hl').2] at hcl'
          exact hn hcl'
        · exact ih (cs.dropWhile isSp)
            (fun hx => hl (List.mem_cons_of_mem _ ((List.dropWhile_suffix isSp).subset hx)))
            h2
      · intro hmem
        rcases List.mem_cons.mp hmem with rfl | h2
        · exact hl (List.mem_cons_self _ _)
        · exact ih cs (fun hx => hl (List.mem_cons_of_mem _ hx)) h2

theorem not_mem_subNbsp (c : Char) (hn : c ∉ nbspL) (l : List Char) (hl : c ∉ l) :
    c ∉ subNbsp l :=
  not_mem_subNbspGo c hn l.length l hl

theorem lt_not_mem_cgiEscape : ∀ l : List Char, '<' ∉ cgiEscape l := by
  intro l
  induction l with
  | nil => simp [cgiEscape_nil]
  | cons d cs ih =>
    rw [cgiEscape_cons]
    intro hmem
    rcases List.mem_append.mp hmem with h1 | h2
    · revert h1
      unfold escapeChar
      split_ifs with hd1 hd2 hd3 <;> simp_all [eq_comm]
    · exact ih h2

theorem gt_not_mem_cgiEscape : ∀ l : List Char, '>' ∉ cgiEscape l := by
  intro l
  induction l with
  | nil => simp [cgiEscape_nil]
  | cons d cs ih =>
    rw [cgiEscape_cons]
    intro hmem
    rcases List.mem_append.mp hmem with h1 | h2
    · revert h1
      unfold escapeChar
      split_ifs with hd1 hd2 hd3 <;> simp_all [eq_comm]
    · exact ih h2

/-- C2 (counterexample): the mangling step does escape HTML special
characters: the line `"<"` is rendered as `&lt;`, so `<` does not appear in
the output as it appeared in the input. -/
theorem mangle_line_escapes_counterexample :
    mangle_line ['<'] = ['&', 'l', 't', ';'] ∧ '<' ∉ mangle_line ['<'] ∧
    mangle_line ['&'] = ['&', 'a', 'm', 'p', ';'] ∧
    mangle_line ['>'] = ['&', 'g', 't', ';'] := by decide

/-- C2 (amended): the per-line mangling step escapes the HTML special
characters via `cgi.escape` — `&` becomes `&amp;`, `<` becomes `&lt;`,
`>` becomes `&gt;` — so no literal `<` or `>` survives into the processed
line content. -/
theorem mangle_line_escapes (l : List Char) :
    '<' ∉ mangleContent l ∧ '>' ∉ mangleContent l ∧
    escapeChar '&' = "&amp;".toList ∧
    escapeChar '<' = "&lt;".toList ∧
    escapeChar '>' = "&gt;".toList := by
  refine ⟨?_, ?_, by decide, by decide, by decide⟩
  · exact not_mem_subNbsp '<' (by decide) _ (lt_not_mem_cgiEscape l)
  · exact not_mem_subNbsp '>' (by decide) _ (gt_not_mem_cgiEscape l)

/-! ### The head character of the processed content -/

theorem flatten_replicate_nbsp_head (k : Nat) (r : List Char) :
    ((List.replicate (1 + k) nbspL).flatten ++ r).head? = some '&' := by
  rw [Nat.add_comm, List.replicate_succ, List.flatten_cons]
  rfl

theorem mangleContent_head (l : List Char) (c : Char) (hc1 : c ≠ '&') (hc2 : c ≠ ' ')
    (hc3 : c ≠ '<') (hc4 : c ≠ '>') :
    (mangleContent l).head? = some c ↔ l.head? = some c := by
  cases l with
  | nil => simp [mangleContent, cgiEscape_nil, subNbsp_nil]
  | cons d l' =>
    rw [mangleContent, cgiEscape_cons]
    by_cases hd1 : d = '&'
    · subst hd1
      rw [show escapeChar '&' = '&' :: ['a', 'm', 'p', ';'] from rfl, List.cons_append,
        subNbsp_cons_nonspace _ (by decide)]
      simp only [List.head?_cons, Option.some.injEq]
    · by_cases hd2 : d = '<'
      · subst hd2
        rw [show escapeChar '<' = '&' :: ['l', 't', ';'] from rfl, List.cons_append,
          subNbsp_cons_nonspace _ (by decide)]
        simp only [List.head?_cons, Option.some.injEq]
        constructor
        · intro h; exact absurd h.symm hc1
        · intro h; exact absurd h.symm hc3
      · by_cases hd3 : d = '>'
        · subst hd3
          rw [show escapeChar '>' = '&' :: ['g', 't', ';'] from rfl, List.cons_append,
            subNbsp_cons_nonspace _ (by decide)]
          simp only [List.head?_cons, Option.some.injEq]
          constructor
          · intro h; exact absurd h.symm hc1
          · intro h; exact absurd h.symm hc4
        · by_cases hd4 : d = ' '
          · subst hd4
            rw [escapeChar_space, List.singleton_append]
            by_cases hh : (cgiEscape l').head? = some ' '
            · rw [subNbsp_cons_run _ hh, flatten_replicate_nbsp_head]
              simp only [List.head?_cons, Option.some.injEq]
              constructor
              · intro h; exact absurd h.symm hc1
              · intro h; exact absurd h.symm hc2
            · rw [subNbsp_cons_single _ hh]
              simp only [List.head?_cons, Option.some.injEq]
          · rw [show escapeChar d = [d] from by simp [escapeChar, hd1, hd2, hd3],
              List.singleton_append, subNbsp_cons_nonspace _ hd4]
            simp only [List.head?_cons]

/-- C5: a line beginning with `-` is wrapped in the `tt` tag whose style
holds `#800`; a line beginning with `+` is wrapped in the one whose style
holds `#080`; any other line (the empty line included) gets no wrapping tag. -/
theorem mangle_line_colors (l : List Char) :
    (l.head? = some '-' → mangle_line l = ttRedOpen ++ mangleContent l ++ ttCloseTag) ∧
    (l.head? = some '+' → mangle_line l = ttGreenOpen ++ mangleContent l ++ ttCloseTag) ∧
    (l.head? ≠ some '-' → l.head? ≠ some '+' → mangle_line l = mangleContent l) ∧
    occursIn "#800".toList ttRedOpen = true ∧
    occursIn "#080".toList ttGreenOpen = true := by
  have hdash := mangleContent_head l '-' (by decide) (by decide) (by decide) (by decide)
  have hplus := mangleContent_head l '+' (by decide) (by decide) (by decide) (by decide)
  refine ⟨?_, ?_, ?_, by decide, by decide⟩
  · intro h
    simp only [mangle_line]
    rw [if_pos (hdash.mpr h)]
  · intro h
    simp only [mangle_line]
    rw [if_neg, if_pos (hplus.mpr h)]
    intro hcontra
    have : l.head? = some '-' := hdash.mp hcontra
    rw [h] at this
    exact absurd this (by decide)
  · intro h1 h2
    simp only [mangle_line]
    rw [if_neg (fun hc => h1 (hdash.mp hc)), if_neg (fun hc => h2 (hplus.mp hc))]

/-- Witness for C5 at the lines `"-a"`, `"+a"` and `"z"`. -/
theorem mangle_line_colors_witness :
    mangle_line ['-', 'a'] = ttRedOpen ++ mangleContent ['-', 'a'] ++ ttCloseTag ∧
    mangle_line ['+', 'a'] = ttGreenOpen ++ mangleContent ['+', 'a'] ++ ttCloseTag ∧
    mangle_line ['z'] = mangleContent ['z'] :=
  ⟨(mangle_line_colors ['-', 'a']).1 rfl,
   (mangle_line_colors ['+', 'a']).2.1 rfl,
   (mangle_line_colors ['z']).2.2.1 (by decide) (by decide)⟩

/-! ### Behaviour of the Python split -/

theorem splitGo_fuel (sep : List Char) :
    ∀ f : Nat, ∀ l acc : List Char, l.length ≤ f →
      splitGo sep f l acc = splitGo sep l.length l acc := by
  intro f
  induction f using Nat.strong_induction_on with
  | _ f ih =>
    intro l acc hl
    cases l with
    | nil => cases f <;> rfl
    | cons c cs =>
      cases f with
      | zero => simp at hl
      | succ f' =>
        simp only [List.length_cons] at hl ⊢
        simp only [splitGo]
        have hsuc : cs.length ≤ f' := by omega
        by_cases h : sep ≠ [] ∧ sep.isPrefixOf (c :: cs)
        · rw [if_pos h, if_pos h]
          have hsep1 : 1 ≤ sep.length := List.length_pos.mpr h.1
          have hd : ((c :: cs).drop sep.length).length ≤ cs.length := by
            rw [List.length_drop]
            simp only [List.length_cons]
            omega
          have h1 : splitGo sep f' ((c :: cs).drop sep.length) []
              = splitGo sep ((c :: cs).drop sep.length).length ((c :: cs).drop sep.length) [] :=
            ih f' (Nat.lt_succ_self f') _ _ (le_trans hd hsuc)
          have h2 : splitGo sep cs.length ((c :: cs).drop sep.length) []
              = splitGo sep ((c :: cs).drop sep.length).length ((c :: cs).drop sep.length) [] :=
            ih cs.length (by omega) _ _ hd
          rw [h1, h2]
        · rw [if_neg h, if_neg h]
          exact ih f' (Nat.lt_succ_self f') cs (c :: acc) hsuc
            |>.trans (ih cs.length (by omega) cs (c :: acc) (le_refl _)).symm

theorem splitGo_no_occ (sep : List Char) :
    ∀ (f : Nat) (l acc : List Char), l.length ≤ f →
      (∀ s : List Char, s <:+ l → ¬ sep.isPrefixOf s) →
      splitGo sep f l acc = [acc.reverse ++ l] := by
  intro f
  induction f with
  | zero =>
    intro l acc hl _
    cases l with
    | nil => simp [splitGo]
    | cons c cs => simp at hl
  | succ f ih =>
    intro l acc hl hno
    cases l with
    | nil => simp [splitGo]
    | cons c cs =>
      simp only [splitGo]
      rw [if_neg (fun hcond => hno (c :: cs) (List.suffix_refl _) hcond.2)]
      rw [ih cs (c :: acc) (by simp only [List.length_cons] at hl; omega)
        (fun s hs => hno s (hs.trans (List.suffix_cons c cs)))]
      simp [List.append_assoc]

theorem splitGo_occ (sep : List Char) (hsep : sep.head? = some '>') :
    ∀ (a : List Char) (f : Nat) (acc b : List Char),
      (a ++ sep ++ b).length ≤ f → '>' ∉ a →
      splitGo sep f (a ++ sep ++ b) acc = (acc.reverse ++ a) :: pySplit sep b := by
  intro a
  induction a with
  | nil =>
    intro f acc b hf ha
    obtain ⟨sep', rfl⟩ : ∃ s', sep = '>' :: s' := by
      cases sep with
      | nil => simp at hsep
      | cons x s' =>
        have hx : x = '>' := by simpa using hsep
        exact ⟨s', by rw [hx]⟩
    simp only [List.nil_append, List.cons_append] at hf ⊢
    cases f with
    | zero => simp at hf
    | succ f' =>
      simp only [splitGo]
      rw [if_pos ⟨by simp, List.isPrefixOf_iff_prefix.mpr (by
        rw [← List.cons_append]; exact List.prefix_append _ _)⟩]
      simp only [List.length_cons, List.drop_succ_cons, List.drop_left]
      have hb : b.length ≤ f' := by
        simp only [List.length_cons, List.length_append] at hf
        omega
      rw [splitGo_fuel ('>' :: sep') f' b [] hb]
      simp [pySplit]
  | cons c a' ih =>
    intro f acc b hf ha
    have hc : c ≠ '>' := fun h => ha (h ▸ List.mem_cons_self c a')
    simp only [List.cons_append] at hf ⊢
    cases f with
    | zero => simp at hf
    | succ f' =>
      simp only [splitGo]
      rw [if_neg]
      · rw [ih f' (c :: acc) b (by simp only [List.length_cons] at hf; omega)
          (fun h => ha (List.mem_cons_of_mem _ h))]
        simp [List.append_assoc]
      · intro hcond
        have hpre := List.isPrefixOf_iff_prefix.mp hcond.2
        cases sep with
        | nil => simp at hsep
        | cons x s' =>
          have hx : x = '>' := by simpa using hsep
          rcases List.cons_prefix_cons.mp hpre with ⟨h1, _⟩
          exact hc (by rw [← h1, hx])

theorem pySplit_no_occ (sep l : List Char)
    (h : ∀ s : List Char, s <:+ l → ¬ sep.isPrefixOf s) : pySplit sep l = [l] := by
  rw [pySplit, splitGo_no_occ sep l.length l [] (le_refl _) h]
  rfl

theorem pySplit_cons_occ (sep : List Char) (hsep : sep.head? = some '>')
    (a b : List Char) (ha : '>' ∉ a) :
    pySplit sep (a ++ sep ++ b) = a :: pySplit sep b := by
  rw [pySplit, splitGo_occ sep hsep a _ [] b (le_refl _) ha]
  rfl

theorem no_occ_of_occursIn_false (sep l : List Char) (h : occursIn sep l = false) :
    ∀ s : List Char, s <:+ l → ¬ sep.isPrefixOf s := by
  intro s hs hp
  rw [occursIn, List.any_eq_false] at h
  exact h s ((List.mem_tails s l).mpr hs) hp

theorem no_occ_of_not_mem (sep l : List Char) (hsep : sep.head? = some '>')
    (h : '>' ∉ l) : ∀ s : List Char, s <:+ l → ¬ sep.isPrefixOf s := by
  intro s hs hp
  have hpre := List.isPrefixOf_iff_prefix.mp hp
  have hgt : '>' ∈ sep := List.mem_of_mem_head? (by rw [hsep]; rfl)
  exact h (hs.subset (hpre.subset hgt))

/-- C1 (counterexample): an input with exactly ONE occurrence of the 63-dash
delimiter is not rendered as one undivided block: the code still splits there
and inserts an `<hr>` marker. -/
theorem delimiter_once_still_splits :
    occursIn hrL (htmlify (['a'] ++ separatorL ++ ['b'])) = true ∧
    htmlify (['a'] ++ separatorL ++ ['b'])
      ≠ docHead ++ List.intercalate brL (convert_block (['a'] ++ separatorL ++ ['b']))
          ++ docTail := by
  decide

/-- C1 (amended): `_breakemail` splits at EVERY occurrence of the 63-dash
delimiter, inserting one `<hr>` entry per occurrence. A delimiter-free input
is one undivided block; exactly two occurrences give three blocks joined with
two `<hr>` entries, as claimed; but one occurrence already gives two blocks
with one `<hr>` (and similarly for three or more). -/
theorem breakemail_delimiter_blocks (t a b c : List Char) :
    (occursIn separatorL t = false →
      breakemail t = List.intercalate brL (convert_block t)) ∧
    ('>' ∉ a → '>' ∉ b →
      breakemail (a ++ separatorL ++ b)
        = List.intercalate brL (convert_block a ++ [hrL] ++ convert_block b)) ∧
    ('>' ∉ a → '>' ∉ b → '>' ∉ c →
      breakemail (a ++ separatorL ++ b ++ separatorL ++ c)
        = List.intercalate brL
            (convert_block a ++ [hrL] ++ convert_block b ++ [hrL] ++ convert_block c)) := by
  have hsep : separatorL.head? = some '>' := rfl
  refine ⟨?_, ?_, ?_⟩
  · intro h
    rw [breakemail, pySplit_no_occ _ _ (no_occ_of_occursIn_false _ _ h)]
    simp [blocksToLines]
  · intro ha hb
    rw [breakemail, pySplit_cons_occ _ hsep a b ha,
      pySplit_no_occ _ _ (no_occ_of_not_mem _ _ hsep hb)]
    simp [blocksToLines, List.append_assoc]
  · intro ha hb hc
    have hassoc : a ++ separatorL ++ b ++ separatorL ++ c
        = a ++ separatorL ++ (b ++ separatorL ++ c) := by
      simp [List.append_assoc]
    rw [breakemail, hassoc, pySplit_cons_occ _ hsep a _ ha,
      pySplit_cons_occ _ hsep b c hb,
      pySplit_no_occ _ _ (no_occ_of_not_mem _ _ hsep hc)]
    simp [blocksToLines, List.append_assoc]

/-- Witness for the amended C1 at `t = "x"`, `a = "a"`, `b = "b"`, `c = "c"`. -/
theorem breakemail_delimiter_blocks_witness :
    breakemail ['x'] = List.intercalate brL (convert_block ['x']) ∧
    breakemail (['a'] ++ separatorL ++ ['b'])
      = List.intercalate brL (convert_block ['a'] ++ [hrL] ++ convert_block ['b']) ∧
    breakemail (['a'] ++ separatorL ++ ['b'] ++ separatorL ++ ['c'])
      = List.intercalate brL
          (convert_block ['a'] ++ [hrL] ++ convert_block ['b'] ++ [hrL]
            ++ convert_block ['c']) :=
  ⟨(breakemail_delimiter_blocks ['x'] ['a'] ['b'] ['c']).1 (by decide),
   (breakemail_delimiter_blocks ['x'] ['a'] ['b'] ['c']).2.1 (by decide) (by decide),
   (breakemail_delimiter_blocks ['x'] ['a'] ['b'] ['c']).2.2 (by decide) (by decide)
     (by decide)⟩

/-- C10: `_breakbody` splits the input at each occurrence of the email
separator (`>` followed by 63 `*`) and joins the per-email renderings with
the styled `<hr>` element (whose style sets height 3px, background-color
#eee, a solid 1px border, and color #ccc); with no separator present the
join is the identity. -/
theorem breakbody_emailsep_splits (t a b : List Char) :
    (occursIn emailsepL t = false → breakbody t = breakemail t) ∧
    ('>' ∉ a → '>' ∉ b →
      breakbody (a ++ emailsepL ++ b) = breakemail a ++ emailHrL ++ breakemail b) ∧
    occursIn "height: 3px".toList emailHrL = true ∧
    occursIn "background-color: #eee".toList emailHrL = true ∧
    occursIn "border: solid 1px".toList emailHrL = true ∧
    occursIn "color: #ccc".toList emailHrL = true := by
  have hsep : emailsepL.head? = some '>' := rfl
  refine ⟨?_, ?_, by decide, by decide, by decide, by decide⟩
  · intro h
    rw [breakbody, pySplit_no_occ _ _ (no_occ_of_occursIn_false _ _ h)]
    simp [List.intercalate]
  · intro ha hb
    rw [breakbody, pySplit_cons_occ _ hsep a b ha,
      pySplit_no_occ _ _ (no_occ_of_not_mem _ _ hsep hb)]
    simp [List.intercalate, List.intersperse]

/-- Witness for C10 at `t = "x"`, `a = "a"`, `b = "b"`. -/
theorem breakbody_emailsep_splits_witness :
    breakbody ['x'] = breakemail ['x'] ∧
    breakbody (['a'] ++ emailsepL ++ ['b'])
      = breakemail ['a'] ++ emailHrL ++ breakemail ['b'] :=
  ⟨(breakbody_emailsep_splits ['x'] ['a'] ['b']).1 (by decide),
   (breakbody_emailsep_splits ['x'] ['a'] ['b']).2.1 (by decide) (by decide)⟩
